import Mathlib

/-!
Verification of the core of `websudoku-dl` (`src/main.rs`): the puzzle
Extractor (regex scraping of `id="…" … value="…"` pairs over HTML and
conversion to a `Puzzle` record) and the Serializer
(`Puzzle::write_masked_puzzle`).

The embedding works on `List Char` for text.  Rust `u8` bytes are
modelled as `Nat` with explicit `% 256` where wrap-around matters.
Output to the `Write` sink is modelled as the list of emitted
characters (sink failure is out of scope of the spec's core).  The
regex character classes follow the regex crate's default Unicode
semantics: `\d` is `\p{Nd}` (`isRegexDigit`, the ASCII digits plus the
non-ASCII decimal-digit ranges) and `\S` is the complement of the Unicode
White_Space property (`isRegexSpace`).
-/

namespace Websudoku

/-- The `enum Difficulty` from `src/main.rs`. -/
inductive Difficulty where
  | easy
  | medium
  | hard
  | evil
deriving DecidableEq, Repr

/-- The `struct Puzzle` from `src/main.rs`: `solution: Vec<u8>` becomes a list
of naturals (each intended `< 256`) and `mask: Vec<bool>` a list of booleans. -/
structure Puzzle where
  difficulty : Difficulty
  id : List Char
  solution : List Nat
  mask : List Bool
deriving DecidableEq, Repr

/-- The characters emitted for a `u8` value by `write!(w, "{},", value)`:
decimal representation of the value (for values below 256 Rust's `Display`
for `u8` agrees with `Nat.repr`). -/
def natDigits (n : Nat) : List Char :=
  (Nat.repr n).data

/-- Rust `slice::chunks(9)`: consecutive groups of nine elements, the last
group (if not empty) possibly shorter. -/
def chunks9 {α : Type} : List α → List (List α)
  | [] => []
  | a₁ :: a₂ :: a₃ :: a₄ :: a₅ :: a₆ :: a₇ :: a₈ :: a₉ :: rest =>
      [a₁, a₂, a₃, a₄, a₅, a₆, a₇, a₈, a₉] :: chunks9 rest
  | l => [l]

/-- The body of the column loop of `Puzzle::write_masked_puzzle` for one cell:
`idx` is the column index produced by `enumerate()`, `value` the solution
byte, `can_edit` the mask flag. -/
def writeCell (idx : Nat) (value : Nat) (can_edit : Bool) : List Char :=
  if idx == 8 then
    if can_edit then [] else natDigits value ++ [',']
  else
    if can_edit then [','] else natDigits value ++ [',']

/-- One iteration of the row loop of `Puzzle::write_masked_puzzle`:
the columns of `row.iter().zip(mask).enumerate()` followed by the newline. -/
def writeRow (row : List Nat) (mask : List Bool) : List Char :=
  (((row.zip mask).enum).map (fun p => writeCell p.1 p.2.1 p.2.2)).flatten ++ ['\n']

/-- The serializer `Puzzle::write_masked_puzzle`: chunk solution and mask into rows of 9,
keep only complete rows, pair them with `zip`, and emit each row. -/
def write_masked_puzzle (p : Puzzle) : List Char :=
  let rows := (chunks9 p.solution).filter (fun x => x.length == 9)
  let row_masks := (chunks9 p.mask).filter (fun x => x.length == 9)
  ((rows.zip row_masks).map (fun rm => writeRow rm.1 rm.2)).flatten

/-- Case-insensitive character comparison, as `case_insensitive(true)`
applies it to the pattern's literal characters (all ASCII). -/
def ciEq (a b : Char) : Bool := a.toLower == b.toLower

/-- Match the literal `pat` case-insensitively as a prefix of `s`,
returning the remaining text. -/
def dropCi : List Char → List Char → Option (List Char)
  | [], s => some s
  | _ :: _, [] => none
  | p :: ps, c :: cs => if ciEq c p then dropCi ps cs else none

/-- The literal `<input` of `input_regex`. -/
def inputLit : List Char := ['<', 'i', 'n', 'p', 'u', 't']

/-- The literal `id="` of `input_regex`. -/
def idLit : List Char := ['i', 'd', '=', '"']

/-- The literal `value="` of `input_regex`. -/
def valueLit : List Char := ['v', 'a', 'l', 'u', 'e', '=', '"']

/-- The non-ASCII ranges of the Unicode general category Nd (decimal
digits), as in Unicode 15.1: the regex crate's default (Unicode) `\d` is
`\p{Nd}`.  Every range lies at or above U+0660. -/
def ndRanges : List (Nat × Nat) :=
  [(0x660, 0x669), (0x6F0, 0x6F9), (0x7C0, 0x7C9), (0x966, 0x96F),
   (0x9E6, 0x9EF), (0xA66, 0xA6F), (0xAE6, 0xAEF), (0xB66, 0xB6F),
   (0xBE6, 0xBEF), (0xC66, 0xC6F), (0xCE6, 0xCEF), (0xD66, 0xD6F),
   (0xDE6, 0xDEF), (0xE50, 0xE59), (0xED0, 0xED9), (0xF20, 0xF29),
   (0x1040, 0x1049), (0x1090, 0x1099), (0x17E0, 0x17E9), (0x1810, 0x1819),
   (0x1946, 0x194F), (0x19D0, 0x19D9), (0x1A80, 0x1A89), (0x1A90, 0x1A99),
   (0x1B50, 0x1B59), (0x1BB0, 0x1BB9), (0x1C40, 0x1C49), (0x1C50, 0x1C59),
   (0xA620, 0xA629), (0xA8D0, 0xA8D9), (0xA900, 0xA909), (0xA9D0, 0xA9D9),
   (0xA9F0, 0xA9F9), (0xAA50, 0xAA59), (0xABF0, 0xABF9), (0xFF10, 0xFF19),
   (0x104A0, 0x104A9), (0x10D30, 0x10D39), (0x11066, 0x1106F),
   (0x110F0, 0x110F9), (0x11136, 0x1113F), (0x111D0, 0x111D9),
   (0x112F0, 0x112F9), (0x11450, 0x11459), (0x114D0, 0x114D9),
   (0x11650, 0x11659), (0x116C0, 0x116C9), (0x11730, 0x11739),
   (0x118E0, 0x118E9), (0x11950, 0x11959), (0x11C50, 0x11C59),
   (0x11D50, 0x11D59), (0x11DA0, 0x11DA9), (0x11F50, 0x11F59),
   (0x16A60, 0x16A69), (0x16AC0, 0x16AC9), (0x16B50, 0x16B59),
   (0x1D7CE, 0x1D7FF), (0x1E140, 0x1E149), (0x1E2F0, 0x1E2F9),
   (0x1E4F0, 0x1E4F9), (0x1E950, 0x1E959)]

/-- The regex crate's `\d`, i.e. the Unicode class `\p{Nd}`: the ASCII
digits 0-9 plus the non-ASCII decimal-digit ranges (no Nd codepoint lies
strictly between U+0039 and U+0660). -/
def isRegexDigit (c : Char) : Bool :=
  let n := c.toNat
  if n < 0x660 then 0x30 ≤ n && n ≤ 0x39
  else ndRanges.any (fun r => r.1 ≤ n && n ≤ r.2)

/-- The regex crate's `\s`, i.e. the Unicode White_Space property (so `\S`
is its complement): tab through carriage return — vertical tab and form
feed included — space, NEL, no-break space, ogham space mark, the en-quad
through hair-space block, line and paragraph separators, narrow no-break
space, medium mathematical space and ideographic space. -/
def isRegexSpace (c : Char) : Bool :=
  let n := c.toNat
  (0x9 ≤ n && n ≤ 0xD) || n == 0x20 || n == 0x85 || n == 0xA0 ||
  n == 0x1680 || (0x2000 ≤ n && n ≤ 0x200A) || n == 0x2028 || n == 0x2029 ||
  n == 0x202F || n == 0x205F || n == 0x3000

/-- The pattern piece `(\d+)"` at the head of `s`: the greedy digit run must be nonempty and
followed by the closing quote; returns the captured digits and the text
after the quote. -/
def matchValTail (s : List Char) : Option (List Char × List Char) :=
  let d := s.takeWhile isRegexDigit
  if d.isEmpty then none
  else
    match s.dropWhile isRegexDigit with
    | c :: rest => if c = '"' then some (d, rest) else none
    | [] => none

/-- A lazy `.+?` gap before a sub-pattern `step`: consume at least one
character (any character — `dot_matches_new_line(true)`), try `step` on
the remainder, and grow the gap by one character on failure, as the
backtracking search does. -/
def lazyGap {β : Type} (step : List Char → Option β) : List Char → Option β
  | [] => none
  | _ :: rest =>
    match step rest with
    | some r => some r
    | none => lazyGap step rest

/-- The pattern piece `value="(\d+)"` at the head of `s`. -/
def matchValLit (s : List Char) : Option (List Char × List Char) :=
  match dropCi valueLit s with
  | some r2 => matchValTail r2
  | none => none

/-- The pattern piece `.+?value="(\d+)"` at the head of `s`. -/
def matchValuePart : List Char → Option (List Char × List Char) :=
  lazyGap matchValLit

/-- Backtracking over the end of the greedy `(\S+)` capture of
`id="(\S+)".+?value="(\d+)"`: token lengths are tried longest first; each
candidate token must be followed immediately by a closing quote, and the
rest of the pattern must match after it. -/
def tryTok (r : List Char) : Nat → Option (List Char × List Char × List Char)
  | 0 => none
  | Nat.succ k =>
    match r.drop (Nat.succ k) with
    | c :: rest =>
      if c = '"' then
        match matchValuePart rest with
        | some (d, r2) => some (r.take (Nat.succ k), d, r2)
        | none => tryTok r k
      else tryTok r k
    | [] => tryTok r k

/-- The pattern piece `id="(\S+)".+?value="(\d+)"` at the head of `s`: the greedy `\S+` run
is bounded by the maximal run of non-whitespace characters after `id="`. -/
def matchIdPart (s : List Char) : Option (List Char × List Char × List Char) :=
  match dropCi idLit s with
  | none => none
  | some r => tryTok r (r.takeWhile (fun c => !isRegexSpace c)).length

/-- The pattern piece `.+?id="(\S+)".+?value="(\d+)"` at the head of `s`: lazy nonempty gap,
then the id part, growing the gap on failure. -/
def matchGapId : List Char → Option (List Char × List Char × List Char) :=
  lazyGap matchIdPart

/-- The whole pattern of `input_regex`,
`<input.+?id="(\S+)".+?value="(\d+)"`, anchored at the head of `s`.
Returns the two captures and the text after the match. -/
def matchAt (s : List Char) : Option (List Char × List Char × List Char) :=
  match dropCi inputLit s with
  | none => none
  | some r => matchGapId r

/-- The regex engine's search: try the pattern at each successive start
position and keep the leftmost match. -/
def findMatch : List Char → Option (List Char × List Char × List Char)
  | [] => none
  | c :: rest =>
    match matchAt (c :: rest) with
    | some res => some res
    | none => findMatch rest

/-- The iteration of `captures_iter`: successive non-overlapping matches, each further
search resuming right after the previous match.  Every match consumes at
least one character, so the length of the text bounds the number of
matches and serves as structural fuel. -/
def capturesFuel : Nat → List Char → List (List Char × List Char)
  | 0, _ => []
  | Nat.succ f, s =>
    match findMatch s with
    | none => []
    | some (t, d, rest) => (t, d) :: capturesFuel f rest

/-- All `(token, digits)` capture pairs of the document, in document order. -/
def capturesList (s : List Char) : List (List Char × List Char) :=
  capturesFuel s.length s

/-- One `HashMap` insertion: replace the value when the key is present,
append the pair otherwise. -/
def hmInsert : List (List Char × List Char) → List Char → List Char →
    List (List Char × List Char)
  | [], k, v => [(k, v)]
  | (k', v') :: rest, k, v =>
    if k' = k then (k', v) :: rest else (k', v') :: hmInsert rest k v

/-- The lookup `HashMap::get`. -/
def hmGet (m : List (List Char × List Char)) (k : List Char) :
    Option (List Char) :=
  List.lookup k m

/-- The map builder `PuzzleExtractor::build_extraction_map`: `collect()` of the capture
pairs into a `HashMap`, inserting in document order. -/
def build_extraction_map (content : List Char) : List (List Char × List Char) :=
  (capturesList content).foldl (fun m td => hmInsert m td.1 td.2) []

/-- The UTF-8 encoding of one character, as `str::bytes` iterates it. -/
def utf8Char (c : Char) : List Nat :=
  let n := c.toNat
  if n < 0x80 then [n]
  else if n < 0x800 then [0xC0 + n / 64, 0x80 + n % 64]
  else if n < 0x10000 then
    [0xE0 + n / 4096, 0x80 + n / 64 % 64, 0x80 + n % 64]
  else
    [0xF0 + n / 0x40000, 0x80 + n / 4096 % 64, 0x80 + n / 64 % 64, 0x80 + n % 64]

/-- The byte iteration `str::bytes` over a whole string. -/
def utf8Bytes (s : List Char) : List Nat :=
  (s.map utf8Char).flatten

/-- The required key `pid`. -/
def PUZZLE_ID : List Char := ['p', 'i', 'd']

/-- The required key `cheat`. -/
def SOLUTION : List Char := ['c', 'h', 'e', 'a', 't']

/-- The required key `editmask`. -/
def MASK_KEY : List Char := ['e', 'd', 'i', 't', 'm', 'a', 's', 'k']

/-- The extractor `PuzzleExtractor::extract`.  The conversion `u - b'0'` is `u8`
(wrapping) subtraction of 48, i.e. `(u + 208) % 256` on a byte `u`. -/
def extract (difficulty : Difficulty) (content : List Char) : Option Puzzle := do
  let map := build_extraction_map content
  let id ← hmGet map PUZZLE_ID
  let cheat ← hmGet map SOLUTION
  let mask ← hmGet map MASK_KEY
  some ⟨difficulty, id,
    (utf8Bytes cheat).map (fun u => (u + 208) % 256),
    (utf8Bytes mask).map (fun u => u == 49)⟩

/-- HTML holding well-formed `pid` and `editmask` input fields but no
`cheat` field. -/
def htmlNoCheat : List Char :=
  ("<html><input id=\"pid\" value=\"77\"> <input id=\"editmask\" value=\"0101\"></html>").data

/-- Case-insensitive equality of a text fragment with a pattern literal. -/
def ciMatches : List Char → List Char → Bool
  | [], [] => true
  | a :: as, b :: bs => ciEq a b && ciMatches as bs
  | _, _ => false

/-- A declarative decomposition of a text `s` matched by `input_regex` with
captures `tok` and `dval` and post-match text `rest`: the case-insensitive
`<input` literal, a nonempty gap of arbitrary characters, the `id="`
literal, a nonempty non-whitespace token closed by a quote, another
nonempty arbitrary gap, the `value="` literal and a nonempty digit run
closed by a quote. -/
def MatchWitness (s tok dval rest : List Char) : Prop :=
  ∃ lit1 g1 lit2 g2 lit3,
    ciMatches lit1 inputLit = true ∧ ciMatches lit2 idLit = true ∧
    ciMatches lit3 valueLit = true ∧ g1 ≠ [] ∧ g2 ≠ [] ∧
    tok ≠ [] ∧ (∀ ch ∈ tok, isRegexSpace ch = false) ∧
    dval ≠ [] ∧ (∀ ch ∈ dval, isRegexDigit ch = true) ∧
    s = lit1 ++ g1 ++ lit2 ++ tok ++ '"' :: (g2 ++ lit3 ++ dval ++ '"' :: rest)

/-- A full fixture document: `pid`, `cheat` and `editmask` all present. -/
def htmlFull : List Char :=
  ("<input id=\"pid\" value=\"42\"><input id=\"cheat\" value=\"192\"><input id=\"editmask\" value=\"101\">").data

/-- The Puzzle extracted from `htmlFull`. -/
def puzzleFull : Puzzle :=
  ⟨Difficulty.evil, ['4', '2'], [1, 9, 2], [true, false, true]⟩

/-- A document whose `cheat` value is the fullwidth digit four U+FF14 — a
member of the Unicode class Nd matched by the regex crate's `\d`. -/
def htmlUnicode : List Char :=
  ("<input id=\"pid\" value=\"1\"><input id=\"cheat\" value=\"４\"><input id=\"editmask\" value=\"1\">").data

/-- The Puzzle extracted from `htmlUnicode`: the three UTF-8 bytes of
U+FF14 are 239, 188 and 148, and wrapping subtraction of 48 gives 191, 140
and 100. -/
def puzzleUnicode : Puzzle :=
  ⟨Difficulty.evil, ['1'], [191, 140, 100], [true]⟩

/-- C1: per-row emission rule of the Serializer.  For every row pair of 9
solution values and 9 mask flags the emitted characters are, column by
column: for columns 0–7 a bare comma when editable and the decimal digits
followed by a comma when given; for column 8 nothing when editable and the
decimal digits followed by a comma when given; then exactly one newline. -/
theorem C1_row_emission (v0 v1 v2 v3 v4 v5 v6 v7 v8 : Nat)
    (e0 e1 e2 e3 e4 e5 e6 e7 e8 : Bool) :
    writeRow [v0, v1, v2, v3, v4, v5, v6, v7, v8]
      [e0, e1, e2, e3, e4, e5, e6, e7, e8] =
    (if e0 then [','] else natDigits v0 ++ [',']) ++
    (if e1 then [','] else natDigits v1 ++ [',']) ++
    (if e2 then [','] else natDigits v2 ++ [',']) ++
    (if e3 then [','] else natDigits v3 ++ [',']) ++
    (if e4 then [','] else natDigits v4 ++ [',']) ++
    (if e5 then [','] else natDigits v5 ++ [',']) ++
    (if e6 then [','] else natDigits v6 ++ [',']) ++
    (if e7 then [','] else natDigits v7 ++ [',']) ++
    (if e8 then [] else natDigits v8 ++ [',']) ++ ['\n'] := by
  simp [writeRow, writeCell, List.enum]

/-- C6: all-given row invariant.  A complete row whose 9 mask values are all
`false` is emitted as the 9 decimal digit strings, each immediately followed
by a comma, then a newline; for digits 1..9 this is `"1,2,3,4,5,6,7,8,9,\n"`. -/
theorem C6_all_given_row :
    (∀ v0 v1 v2 v3 v4 v5 v6 v7 v8 : Nat,
      writeRow [v0, v1, v2, v3, v4, v5, v6, v7, v8] (List.replicate 9 false) =
        natDigits v0 ++ [','] ++ (natDigits v1 ++ [',']) ++
        (natDigits v2 ++ [',']) ++ (natDigits v3 ++ [',']) ++
        (natDigits v4 ++ [',']) ++ (natDigits v5 ++ [',']) ++
        (natDigits v6 ++ [',']) ++ (natDigits v7 ++ [',']) ++
        (natDigits v8 ++ [',']) ++ ['\n']) ∧
    writeRow [1, 2, 3, 4, 5, 6, 7, 8, 9] (List.replicate 9 false) =
      ("1,2,3,4,5,6,7,8,9,\n").data := by
  constructor
  · intro v0 v1 v2 v3 v4 v5 v6 v7 v8
    simp [writeRow, writeCell, List.enum, List.replicate]
  · decide

/-- C7: all-editable row invariant.  A complete row whose 9 mask values are
all `true` is emitted as exactly 8 commas followed by a newline, with no
digits and no ninth comma, whatever the solution values are. -/
theorem C7_all_editable_row (v0 v1 v2 v3 v4 v5 v6 v7 v8 : Nat) :
    writeRow [v0, v1, v2, v3, v4, v5, v6, v7, v8] (List.replicate 9 true) =
      (",,,,,,,,\n").data := rfl

/-- C9: serialization determinism.  Two runs of the Serializer on the same
Puzzle record produce identical output. -/
theorem C9_determinism (p q : Puzzle) (h : p = q) :
    write_masked_puzzle p = write_masked_puzzle q := by rw [h]

/-- Witness for C9 at a concrete record. -/
theorem C9_determinism_witness :
    write_masked_puzzle
        ⟨Difficulty.evil, ['x'], List.range 81, List.replicate 81 false⟩ =
      write_masked_puzzle
        ⟨Difficulty.evil, ['x'], List.range 81, List.replicate 81 false⟩ :=
  C9_determinism _ _ rfl

theorem snd_mem_of_mem_enumFrom {α : Type} {x : Nat × α} :
    ∀ {l : List α} {n : Nat}, x ∈ l.enumFrom n → x.2 ∈ l := by
  intro l
  induction l with
  | nil => intro n h; simp [List.enumFrom] at h
  | cons a t ih =>
    intro n h
    simp only [List.enumFrom, List.mem_cons] at h
    rcases h with h | h
    · subst h; simp
    · exact List.mem_cons_of_mem _ (ih h)

theorem snd_mem_of_mem_enum {α : Type} {x : Nat × α} {l : List α}
    (h : x ∈ l.enum) : x.2 ∈ l :=
  snd_mem_of_mem_enumFrom h

theorem fst_mem_of_mem_zip {α β : Type} {a : α} {b : β} :
    ∀ {l₁ : List α} {l₂ : List β}, (a, b) ∈ l₁.zip l₂ → a ∈ l₁ := by
  intro l₁
  induction l₁ with
  | nil => intro l₂ h; simp [List.zip] at h
  | cons x t ih =>
    intro l₂ h
    cases l₂ with
    | nil => simp [List.zip] at h
    | cons y t₂ =>
      simp only [List.zip_cons_cons, List.mem_cons, Prod.mk.injEq] at h
      rcases h with ⟨rfl, rfl⟩ | h
      · simp
      · exact List.mem_cons_of_mem _ (ih h)

set_option maxRecDepth 4000 in
/-- For `u8` values the decimal rendering contains no newline. -/
theorem count_nl_natDigits : ∀ v : Nat, v < 256 → List.count '\n' (natDigits v) = 0 := by
  decide

theorem count_nl_writeCell (idx v : Nat) (e : Bool) (hv : v < 256) :
    List.count '\n' (writeCell idx v e) = 0 := by
  have hd := count_nl_natDigits v hv
  unfold writeCell
  split <;> split <;> simp [List.count_append, hd]

theorem count_nl_flatten_zero :
    ∀ L : List (List Char), (∀ s ∈ L, List.count '\n' s = 0) →
      List.count '\n' L.flatten = 0 := by
  intro L
  induction L with
  | nil => intro _; simp
  | cons s t ih =>
    intro h
    simp only [List.flatten_cons, List.count_append]
    rw [h s (List.mem_cons_self s t), ih (fun x hx => h x (List.mem_cons_of_mem _ hx))]

theorem count_nl_writeRow (r : List Nat) (m : List Bool)
    (hr : ∀ v ∈ r, v < 256) : List.count '\n' (writeRow r m) = 1 := by
  unfold writeRow
  rw [List.count_append]
  have h0 : List.count '\n'
      (((r.zip m).enum.map (fun p => writeCell p.1 p.2.1 p.2.2)).flatten) = 0 := by
    apply count_nl_flatten_zero
    intro s hs
    rcases List.mem_map.mp hs with ⟨p, hp, rfl⟩
    have : p.2.1 ∈ r := by
      have h2 := snd_mem_of_mem_enum hp
      have h3 : (p.2.1, p.2.2) ∈ r.zip m := by simpa using h2
      exact fst_mem_of_mem_zip h3
    exact count_nl_writeCell p.1 p.2.1 p.2.2 (hr _ this)
  rw [h0]
  decide

theorem count_nl_flatten_ones :
    ∀ L : List (List Char), (∀ s ∈ L, List.count '\n' s = 1) →
      List.count '\n' L.flatten = L.length := by
  intro L
  induction L with
  | nil => intro _; simp
  | cons s t ih =>
    intro h
    simp only [List.flatten_cons, List.count_append, List.length_cons]
    rw [h s (List.mem_cons_self s t), ih (fun x hx => h x (List.mem_cons_of_mem _ hx))]
    omega

theorem chunks9_eq {α : Type} : (l : List α) → l ≠ [] →
    chunks9 l = l.take 9 :: chunks9 (l.drop 9)
  | [], h => absurd rfl h
  | _::_::_::_::_::_::_::_::_::_, _ => rfl
  | [_], _ => rfl
  | [_, _], _ => rfl
  | [_, _, _], _ => rfl
  | [_, _, _, _], _ => rfl
  | [_, _, _, _, _], _ => rfl
  | [_, _, _, _, _, _], _ => rfl
  | [_, _, _, _, _, _, _], _ => rfl
  | [_, _, _, _, _, _, _, _], _ => rfl

theorem chunks9_flatten {α : Type} (l : List α) : (chunks9 l).flatten = l := by
  by_cases h : l = []
  · subst h; rfl
  · rw [chunks9_eq l h]
    simp only [List.flatten_cons]
    rw [chunks9_flatten (l.drop 9)]
    exact List.take_append_drop 9 l
termination_by l.length
decreasing_by
  have := List.length_pos.mpr h
  simp [List.length_drop]
  omega

theorem mem_of_mem_chunks9 {α : Type} {l c : List α} (hc : c ∈ chunks9 l)
    {x : α} (hx : x ∈ c) : x ∈ l := by
  rw [← chunks9_flatten l]
  exact List.mem_flatten.mpr ⟨c, hc, hx⟩

theorem length_filter_chunks9 {α : Type} (l : List α) :
    ((chunks9 l).filter (fun c => c.length == 9)).length = l.length / 9 := by
  by_cases h : l = []
  · subst h; simp [chunks9]
  · rw [chunks9_eq l h]
    by_cases h9 : 9 ≤ l.length
    · have ih := length_filter_chunks9 (l.drop 9)
      have ht : (l.take 9).length = 9 := by
        simp [List.length_take]
        omega
      simp [List.filter_cons, ht, ih, List.length_drop]
      omega
    · have hd : l.drop 9 = [] := by
        apply List.drop_eq_nil_of_le
        omega
      have hmin : ¬ min 9 l.length = 9 := by
        have := List.length_pos.mpr h
        omega
      rw [hd]
      simp [chunks9, List.filter_cons, List.length_take, hmin]
      omega
termination_by l.length
decreasing_by
  simp [List.length_drop]
  omega

/-- C2: row partitioning and line count.  The Serializer emits exactly
`min (⌊|solution|/9⌋, ⌊|mask|/9⌋)` newline characters, one terminating each
emitted row line, for a Puzzle whose solution and mask have arbitrary
lengths (solution values are bytes, i.e. below 256). -/
theorem C2_line_count (p : Puzzle) (hu8 : ∀ v ∈ p.solution, v < 256) :
    List.count '\n' (write_masked_puzzle p) =
      min (p.solution.length / 9) (p.mask.length / 9) := by
  have hones : ∀ s ∈ (((chunks9 p.solution).filter (fun x => x.length == 9)).zip
      ((chunks9 p.mask).filter (fun x => x.length == 9))).map
        (fun rm => writeRow rm.1 rm.2), List.count '\n' s = 1 := by
    intro s hs
    rcases List.mem_map.mp hs with ⟨rm, hrm, rfl⟩
    apply count_nl_writeRow
    intro v hv
    apply hu8
    rcases rm with ⟨r, m⟩
    have h1 := fst_mem_of_mem_zip hrm
    have h2 : r ∈ chunks9 p.solution := (List.mem_filter.mp h1).1
    exact mem_of_mem_chunks9 h2 hv
  unfold write_masked_puzzle
  rw [count_nl_flatten_ones _ hones, List.length_map, List.length_zip,
    length_filter_chunks9, length_filter_chunks9]

/-- Witness for C2: a puzzle with 20 solution values and 23 mask flags is
serialized to exactly `min 2 2 = 2` lines. -/
theorem C2_line_count_witness :
    List.count '\n' (write_masked_puzzle
      ⟨Difficulty.evil, [], List.range 20, List.replicate 23 true⟩) = 2 :=
  C2_line_count _ (by decide)

theorem lookup_hmInsert (m : List (List Char × List Char)) (k' v k : List Char) :
    List.lookup k (hmInsert m k' v) = if k == k' then some v else List.lookup k m := by
  induction m with
  | nil =>
    cases h : k == k' <;> simp [hmInsert, List.lookup, h]
  | cons p t ih =>
    rcases p with ⟨a, b⟩
    by_cases hak : a = k'
    · subst hak
      cases h : k == a <;> simp [hmInsert, List.lookup, h]
    · rw [hmInsert, if_neg hak]
      cases h1 : k == a <;> cases h2 : k == k'
      · simp [List.lookup, h1, h2, ih]
      · simp [List.lookup, h1, h2, ih]
      · simp [List.lookup, h1, h2, ih]
      · exact absurd (by rw [← eq_of_beq h1, eq_of_beq h2]) hak

theorem lookup_append (l₁ l₂ : List (List Char × List Char)) (k : List Char) :
    List.lookup k (l₁ ++ l₂) =
      match List.lookup k l₁ with
      | some v => some v
      | none => List.lookup k l₂ := by
  induction l₁ with
  | nil => simp [List.lookup]
  | cons p t ih =>
    rcases p with ⟨a, b⟩
    cases h : k == a <;> simp [List.lookup, h, ih]

theorem lookup_foldl_hmInsert (pairs : List (List Char × List Char)) :
    ∀ (m : List (List Char × List Char)) (k : List Char),
      List.lookup k (pairs.foldl (fun m td => hmInsert m td.1 td.2) m) =
        match List.lookup k pairs.reverse with
        | some v => some v
        | none => List.lookup k m := by
  induction pairs with
  | nil => intro m k; simp [List.lookup]
  | cons td rest ih =>
    intro m k
    simp only [List.foldl_cons, List.reverse_cons]
    rw [ih, lookup_append]
    rcases htd : List.lookup k rest.reverse with _ | v
    · rcases td with ⟨a, b⟩
      rw [lookup_hmInsert]
      cases h : k == a <;> simp [List.lookup, h]
    · simp

theorem beq_symm_list (a b : List Char) : (a == b) = (b == a) := by
  cases h : a == b
  · cases h2 : b == a
    · rfl
    · have hba := eq_of_beq h2
      subst hba
      simp at h
  · have hab := eq_of_beq h
    subst hab
    simp

theorem mem_keys_hmInsert (m : List (List Char × List Char)) (k v x : List Char)
    (hx : x ∈ (hmInsert m k v).map Prod.fst) :
    x ∈ m.map Prod.fst ∨ x = k := by
  induction m with
  | nil =>
    simp [hmInsert] at hx
    right; exact hx
  | cons p t ih =>
    rcases p with ⟨a, b⟩
    by_cases hak : a = k
    · subst hak
      simp [hmInsert] at hx
      simp [hx]
    · simp only [hmInsert, if_neg hak, List.map_cons, List.mem_cons] at hx
      rcases hx with hx | hx
      · left; simp [hx]
      · rcases ih hx with h | h
        · left; simp [h]
        · right; exact h

theorem keys_nodup_hmInsert (m : List (List Char × List Char)) (k v : List Char)
    (hm : (m.map Prod.fst).Nodup) : ((hmInsert m k v).map Prod.fst).Nodup := by
  induction m with
  | nil => simp [hmInsert]
  | cons p t ih =>
    rcases p with ⟨a, b⟩
    simp only [List.map_cons, List.nodup_cons] at hm
    by_cases hak : a = k
    · subst hak
      simpa [hmInsert] using hm
    · simp only [hmInsert, if_neg hak, List.map_cons, List.nodup_cons]
      refine ⟨?_, ih hm.2⟩
      intro hcon
      rcases mem_keys_hmInsert t k v a hcon with h | h
      · exact hm.1 h
      · exact hak h

theorem keys_nodup_foldl (pairs : List (List Char × List Char)) :
    ∀ (m : List (List Char × List Char)), (m.map Prod.fst).Nodup →
      ((pairs.foldl (fun m td => hmInsert m td.1 td.2) m).map Prod.fst).Nodup := by
  induction pairs with
  | nil => intro m hm; exact hm
  | cons td rest ih =>
    intro m hm
    exact ih _ (keys_nodup_hmInsert m td.1 td.2 hm)

theorem lookup_eq_filter_head (k : List Char) (l : List (List Char × List Char)) :
    List.lookup k l = ((l.filter (fun td => td.1 == k)).head?).map Prod.snd := by
  induction l with
  | nil => rfl
  | cons p t ih =>
    rcases p with ⟨a, b⟩
    rw [List.filter_cons]
    cases h : k == a
    · have h2 : (a == k) = false := by rw [beq_symm_list]; exact h
      simp only [List.lookup, h, h2, Bool.false_eq_true, if_false]
      exact ih
    · have h2 : (a == k) = true := by rw [beq_symm_list]; exact h
      simp [List.lookup, h, h2]

/-- C5: last-write-wins mapping.  For every HTML document the extraction
map holds one value per token (its key list has no duplicates), and the
value stored for a token is the value of the last (document-order) capture
of that token, later matches overwriting earlier ones. -/
theorem C5_last_write_wins (content k : List Char) :
    ((build_extraction_map content).map Prod.fst).Nodup ∧
    hmGet (build_extraction_map content) k =
      ((capturesList content).filter (fun td => td.1 == k)).getLast?.map Prod.snd := by
  constructor
  · exact keys_nodup_foldl _ [] (by simp)
  · rw [hmGet, build_extraction_map, lookup_foldl_hmInsert]
    rw [lookup_eq_filter_head k (capturesList content).reverse]
    rw [List.filter_reverse, List.getLast?_eq_head?_reverse]
    cases ho : ((capturesList content).filter fun td => td.1 == k).reverse.head?
    · simp [ho, List.lookup]
    · simp [ho]

/-- C3: atomic extraction failure.  Whenever any one of the three required
keys `pid`, `cheat`, `editmask` is absent from the extraction map, `extract`
returns `none` — never a partial Puzzle. -/
theorem C3_atomic_failure (d : Difficulty) (content : List Char)
    (h : hmGet (build_extraction_map content) PUZZLE_ID = none ∨
         hmGet (build_extraction_map content) SOLUTION = none ∨
         hmGet (build_extraction_map content) MASK_KEY = none) :
    extract d content = none := by
  unfold extract
  rcases h with h | h | h
  · simp [h]
  · cases hpid : hmGet (build_extraction_map content) PUZZLE_ID <;> simp [hpid, h]
  · cases hpid : hmGet (build_extraction_map content) PUZZLE_ID <;>
      cases hch : hmGet (build_extraction_map content) SOLUTION <;>
        simp [hpid, hch, h]

/-- Witness for C3: a document with `pid` and `editmask` but no `cheat`
yields no Puzzle, although both present fields are extracted. -/
theorem C3_atomic_failure_witness :
    hmGet (build_extraction_map htmlNoCheat) PUZZLE_ID = some ['7', '7'] ∧
    hmGet (build_extraction_map htmlNoCheat) MASK_KEY = some ['0', '1', '0', '1'] ∧
    extract Difficulty.evil htmlNoCheat = none :=
  ⟨by decide, by decide,
    C3_atomic_failure Difficulty.evil htmlNoCheat (Or.inr (Or.inl (by decide)))⟩

theorem dropCi_sound : ∀ (pat s r : List Char), dropCi pat s = some r →
    ∃ l, ciMatches l pat = true ∧ s = l ++ r := by
  intro pat
  induction pat with
  | nil =>
    intro s r h
    simp [dropCi] at h
    exact ⟨[], rfl, by simp [h]⟩
  | cons p ps ih =>
    intro s r h
    cases s with
    | nil => simp [dropCi] at h
    | cons c cs =>
      rw [dropCi] at h
      by_cases hc : ciEq c p = true
      · rw [if_pos hc] at h
        rcases ih cs r h with ⟨l, hl, hcs⟩
        exact ⟨c :: l, by simp [ciMatches, hc, hl], by simp [hcs]⟩
      · rw [if_neg hc] at h
        cases h

theorem matchValTail_sound (s d rest : List Char)
    (h : matchValTail s = some (d, rest)) :
    d ≠ [] ∧ (∀ ch ∈ d, isRegexDigit ch = true) ∧ s = d ++ '"' :: rest := by
  rw [matchValTail] at h
  split at h
  · cases h
  · rename_i hne
    split at h
    · rename_i c r hdw
      split at h
      · rename_i hc
        subst hc
        simp only [Option.some.injEq, Prod.mk.injEq] at h
        rcases h with ⟨h4, h5⟩
        subst h4
        subst h5
        refine ⟨?_, ?_, ?_⟩
        · intro hcon
          rw [hcon] at hne
          simp at hne
        · intro ch hch
          exact List.mem_takeWhile_imp hch
        · conv_lhs => rw [← @List.takeWhile_append_dropWhile Char isRegexDigit s]
          rw [hdw]
      · cases h
    · cases h

theorem lazyGap_sound {β : Type} (step : List Char → Option β) :
    ∀ (s : List Char) (r : β), lazyGap step s = some r →
      ∃ g t, g ≠ [] ∧ s = g ++ t ∧ step t = some r := by
  intro s
  induction s with
  | nil => intro r h; cases h
  | cons c rest ih =>
    intro r h
    rw [lazyGap] at h
    cases hs : step rest with
    | some r' =>
      rw [hs] at h
      cases h
      exact ⟨[c], rest, by simp, rfl, hs⟩
    | none =>
      rw [hs] at h
      rcases ih r h with ⟨g, t, hg, hst, hstep⟩
      exact ⟨c :: g, t, by simp, by simp [hst], hstep⟩

theorem matchValLit_sound (s : List Char) (d r : List Char)
    (h : matchValLit s = some (d, r)) :
    ∃ lit, ciMatches lit valueLit = true ∧ d ≠ [] ∧
      (∀ ch ∈ d, isRegexDigit ch = true) ∧ s = lit ++ d ++ '"' :: r := by
  rw [matchValLit] at h
  cases hdc : dropCi valueLit s with
  | none => rw [hdc] at h; cases h
  | some r2 =>
    rw [hdc] at h
    rcases dropCi_sound valueLit s r2 hdc with ⟨lit, hlit, hs⟩
    rcases matchValTail_sound r2 d r h with ⟨hd, hdig, hr2⟩
    exact ⟨lit, hlit, hd, hdig, by rw [hs, hr2, List.append_assoc]⟩

theorem matchValuePart_sound (s : List Char) (d r : List Char)
    (h : matchValuePart s = some (d, r)) :
    ∃ g lit, g ≠ [] ∧ ciMatches lit valueLit = true ∧ d ≠ [] ∧
      (∀ ch ∈ d, isRegexDigit ch = true) ∧ s = g ++ lit ++ d ++ '"' :: r := by
  rcases lazyGap_sound matchValLit s (d, r) h with ⟨g, t, hg, hst, hstep⟩
  rcases matchValLit_sound t d r hstep with ⟨lit, hlit, hd, hdig, ht⟩
  exact ⟨g, lit, hg, hlit, hd, hdig, by rw [hst, ht]; simp [List.append_assoc]⟩

theorem take_all_of_le_takeWhile {p : Char → Bool} :
    ∀ (r : List Char) (k : Nat), k ≤ (r.takeWhile p).length →
      ∀ x ∈ r.take k, p x = true := by
  intro r
  induction r with
  | nil => intro k _ x hx; simp at hx
  | cons c t ih =>
    intro k hk x hx
    cases k with
    | zero => simp at hx
    | succ k' =>
      cases hp : p c with
      | false =>
        rw [List.takeWhile_cons, hp] at hk
        simp at hk
      | true =>
        rw [List.takeWhile_cons, hp] at hk
        simp only [if_true, List.length_cons, Nat.succ_le_succ_iff] at hk
        rw [List.take_succ_cons] at hx
        rcases List.mem_cons.mp hx with rfl | hx'
        · exact hp
        · exact ih k' hk x hx'

theorem tryTok_sound (r : List Char) : ∀ (K : Nat) (tok d r2 : List Char),
    tryTok r K = some (tok, d, r2) →
      ∃ rest, tok ≠ [] ∧ tok.length ≤ K ∧ tok = r.take tok.length ∧
        r = tok ++ '"' :: rest ∧ matchValuePart rest = some (d, r2) := by
  intro K
  induction K with
  | zero => intro tok d r2 h; cases h
  | succ k ih =>
    intro tok d r2 h
    rw [tryTok] at h
    split at h
    · rename_i c rest hdrop
      split at h
      · rename_i hc
        subst hc
        split at h
        · rename_i d' r2' hmv
          simp only [Option.some.injEq, Prod.mk.injEq] at h
          rcases h with ⟨rfl, rfl, rfl⟩
          have hlen : r.length = Nat.succ k + (rest.length + 1) := by
            have := congrArg List.length (List.take_append_drop (Nat.succ k) r)
            rw [hdrop] at this
            simp only [List.length_append, List.length_take, List.length_cons] at this
            omega
          have htk : (r.take (Nat.succ k)).length = Nat.succ k := by
            simp [List.length_take]
            omega
          refine ⟨rest, ?_, ?_, ?_, ?_, hmv⟩
          · intro hcon
            rw [hcon] at htk
            simp at htk
          · omega
          · rw [htk]
          · conv_lhs => rw [← List.take_append_drop (Nat.succ k) r]
            rw [hdrop]
        · rcases ih tok d r2 h with ⟨rest', h1, h2, h3, h4, h5⟩
          exact ⟨rest', h1, by omega, h3, h4, h5⟩
      · rcases ih tok d r2 h with ⟨rest', h1, h2, h3, h4, h5⟩
        exact ⟨rest', h1, by omega, h3, h4, h5⟩
    · rcases ih tok d r2 h with ⟨rest', h1, h2, h3, h4, h5⟩
      exact ⟨rest', h1, by omega, h3, h4, h5⟩

theorem matchIdPart_sound (s tok d r2 : List Char)
    (h : matchIdPart s = some (tok, d, r2)) :
    ∃ lit rest, ciMatches lit idLit = true ∧ tok ≠ [] ∧
      (∀ x ∈ tok, isRegexSpace x = false) ∧
      s = lit ++ tok ++ '"' :: rest ∧ matchValuePart rest = some (d, r2) := by
  rw [matchIdPart] at h
  cases hdc : dropCi idLit s with
  | none => rw [hdc] at h; cases h
  | some r =>
    rw [hdc] at h
    rcases tryTok_sound r _ tok d r2 h with ⟨rest, h1, h2, h3, h4, h5⟩
    rcases dropCi_sound idLit s r hdc with ⟨lit, hlit, hs⟩
    refine ⟨lit, rest, hlit, h1, ?_, ?_, h5⟩
    · intro x hx
      have hx' : x ∈ r.take tok.length := by rw [← h3]; exact hx
      have hall := @take_all_of_le_takeWhile (fun c => !isRegexSpace c)
        r tok.length h2 x hx'
      simpa using hall
    · rw [hs, h4]
      simp [List.append_assoc]

theorem matchAt_sound (s tok d r2 : List Char)
    (h : matchAt s = some (tok, d, r2)) : MatchWitness s tok d r2 := by
  rw [matchAt] at h
  cases hdc : dropCi inputLit s with
  | none => rw [hdc] at h; cases h
  | some r =>
    rw [hdc] at h
    rcases lazyGap_sound matchIdPart r (tok, d, r2) h with ⟨g1, t, hg1, hrt, hstep⟩
    rcases matchIdPart_sound t tok d r2 hstep with
      ⟨lit2, rest0, hlit2, htok, hws, ht, hmv⟩
    rcases matchValuePart_sound rest0 d r2 hmv with
      ⟨g2, lit3, hg2, hlit3, hd, hdig, hrest0⟩
    rcases dropCi_sound inputLit s r hdc with ⟨lit1, hlit1, hs⟩
    refine ⟨lit1, g1, lit2, g2, lit3, hlit1, hlit2, hlit3, hg1, hg2,
      htok, hws, hd, hdig, ?_⟩
    rw [hs, hrt, ht, hrest0]
    simp [List.append_assoc]

theorem findMatch_sound : ∀ (s : List Char) (res : List Char × List Char × List Char),
    findMatch s = some res →
      ∃ pre tail, s = pre ++ tail ∧ matchAt tail = some res := by
  intro s
  induction s with
  | nil => intro res h; cases h
  | cons c rest ih =>
    intro res h
    rw [findMatch] at h
    cases hma : matchAt (c :: rest) with
    | some r' =>
      rw [hma] at h
      cases h
      exact ⟨[], c :: rest, rfl, hma⟩
    | none =>
      rw [hma] at h
      rcases ih res h with ⟨pre, tail, hst, hma'⟩
      exact ⟨c :: pre, tail, by simp [hst], hma'⟩

theorem digit_char_bounds (c : Char) (h : c.isDigit = true) :
    48 ≤ c.toNat ∧ c.toNat ≤ 57 := by
  simp [Char.isDigit] at h
  rcases h with ⟨h1, h2⟩
  exact ⟨h1, h2⟩

theorem utf8Char_ascii (c : Char) (h : c.toNat < 128) : utf8Char c = [c.toNat] := by
  simp only [utf8Char]
  rw [if_pos (by omega)]

theorem utf8Bytes_ascii : ∀ (s : List Char), (∀ ch ∈ s, ch.toNat < 128) →
    utf8Bytes s = s.map Char.toNat := by
  intro s
  induction s with
  | nil => intro _; rfl
  | cons c t ih =>
    intro h
    show utf8Char c ++ (t.map utf8Char).flatten = c.toNat :: t.map Char.toNat
    rw [utf8Char_ascii c (h c (by simp))]
    have ht := ih (fun x hx => h x (by simp [hx]))
    rw [utf8Bytes] at ht
    rw [ht]
    rfl

theorem utf8Bytes_of_digits (s : List Char) (h : ∀ ch ∈ s, ch.isDigit = true) :
    utf8Bytes s = s.map Char.toNat :=
  utf8Bytes_ascii s (fun ch hch => by
    have := (digit_char_bounds ch (h ch hch)).2
    omega)

theorem mem_utf8Bytes_digits (s : List Char) (h : ∀ ch ∈ s, ch.isDigit = true) :
    ∀ u ∈ utf8Bytes s, 48 ≤ u ∧ u ≤ 57 := by
  rw [utf8Bytes_of_digits s h]
  intro u hu
  rcases List.mem_map.mp hu with ⟨ch, hch, rfl⟩
  exact digit_char_bounds ch (h ch hch)

theorem capturesFuel_sound : ∀ (f : Nat) (s t d : List Char),
    (t, d) ∈ capturesFuel f s →
      (t ≠ [] ∧ ∀ ch ∈ t, isRegexSpace ch = false) ∧
      (d ≠ [] ∧ ∀ ch ∈ d, isRegexDigit ch = true) := by
  intro f
  induction f with
  | zero => intro s t d h; simp [capturesFuel] at h
  | succ f ih =>
    intro s t d h
    rw [capturesFuel] at h
    cases hfm : findMatch s with
    | none => rw [hfm] at h; simp at h
    | some res =>
      rcases res with ⟨t', d', rest⟩
      rw [hfm] at h
      rcases List.mem_cons.mp h with heq | hmem
      · injection heq with h1 h2
        subst h1
        subst h2
        rcases findMatch_sound s _ hfm with ⟨pre, tail, _, hma⟩
        rcases matchAt_sound _ _ _ _ hma with
          ⟨_, _, _, _, _, _, _, _, _, _, htok, hws, hd, hdig, _⟩
        exact ⟨⟨htok, hws⟩, hd, hdig⟩
      · exact ih rest t d hmem

theorem capturesList_sound (s t d : List Char) (h : (t, d) ∈ capturesList s) :
    (t ≠ [] ∧ ∀ ch ∈ t, isRegexSpace ch = false) ∧
    (d ≠ [] ∧ ∀ ch ∈ d, isRegexDigit ch = true) :=
  capturesFuel_sound s.length s t d h

theorem mem_of_lookup_some : ∀ (l : List (List Char × List Char)) (k v : List Char),
    List.lookup k l = some v → (k, v) ∈ l := by
  intro l
  induction l with
  | nil => intro k v h; cases h
  | cons p t ih =>
    intro k v h
    rcases p with ⟨a, b⟩
    rw [List.lookup] at h
    cases hk : k == a
    · rw [hk] at h
      exact List.mem_cons_of_mem _ (ih k v h)
    · rw [hk] at h
      cases h
      have hka : k = a := eq_of_beq hk
      subst hka
      exact List.mem_cons_self _ _

theorem hmGet_build_mem (content k v : List Char)
    (h : hmGet (build_extraction_map content) k = some v) :
    (k, v) ∈ capturesList content := by
  rw [hmGet, build_extraction_map, lookup_foldl_hmInsert] at h
  cases ho : List.lookup k (capturesList content).reverse with
  | none =>
    rw [ho] at h
    simp [List.lookup] at h
  | some v' =>
    rw [ho] at h
    cases h
    exact List.mem_reverse.mp (mem_of_lookup_some _ k v ho)

theorem extract_eq_some (d : Difficulty) (content : List Char) (p : Puzzle)
    (hp : extract d content = some p) :
    ∃ id0 c0 m0,
      hmGet (build_extraction_map content) PUZZLE_ID = some id0 ∧
      hmGet (build_extraction_map content) SOLUTION = some c0 ∧
      hmGet (build_extraction_map content) MASK_KEY = some m0 ∧
      p = ⟨d, id0, (utf8Bytes c0).map (fun u => (u + 208) % 256),
            (utf8Bytes m0).map (fun u => u == 49)⟩ := by
  rw [extract] at hp
  cases hpid : hmGet (build_extraction_map content) PUZZLE_ID with
  | none => rw [hpid] at hp; cases hp
  | some id0 =>
    rw [hpid] at hp
    cases hch : hmGet (build_extraction_map content) SOLUTION with
    | none => rw [hch] at hp; cases hp
    | some c0 =>
      rw [hch] at hp
      cases hmk : hmGet (build_extraction_map content) MASK_KEY with
      | none => rw [hmk] at hp; cases hp
      | some m0 =>
        rw [hmk] at hp
        cases hp
        exact ⟨id0, c0, m0, rfl, rfl, rfl, rfl⟩

theorem ndRanges_lower : ∀ r ∈ ndRanges, 0x660 ≤ r.1 := by decide

/-- A codepoint below U+0660 is in Nd exactly when it is an ASCII digit. -/
theorem isRegexDigit_ascii_bounds (c : Char) (h : isRegexDigit c = true)
    (hn : c.toNat < 0x660) : 48 ≤ c.toNat ∧ c.toNat ≤ 57 := by
  rw [isRegexDigit] at h
  rw [if_pos hn] at h
  simp at h
  exact h

/-- Every UTF-8 byte of a character of the Unicode class Nd is at least 48:
ASCII digits encode as the bytes 48-57, and every byte of a non-ASCII
encoding is at least 128. -/
theorem nd_byte_lower (c : Char) (h : isRegexDigit c = true) :
    ∀ u ∈ utf8Char c, 48 ≤ u := by
  intro u hu
  by_cases hn : c.toNat < 0x660
  · have hb := isRegexDigit_ascii_bounds c h hn
    rw [utf8Char_ascii c (by omega)] at hu
    simp at hu
    omega
  · have h128 : ¬ c.toNat < 0x80 := by omega
    simp only [utf8Char] at hu
    rw [if_neg h128] at hu
    by_cases h2 : c.toNat < 0x800
    · rw [if_pos h2] at hu
      simp at hu
      rcases hu with rfl | rfl <;> omega
    · rw [if_neg h2] at hu
      by_cases h3 : c.toNat < 0x10000
      · rw [if_pos h3] at hu
        simp at hu
        rcases hu with rfl | rfl | rfl <;> omega
      · rw [if_neg h3] at hu
        simp at hu
        rcases hu with rfl | rfl | rfl | rfl <;> omega

/-- Every character of a value captured for the `cheat` key belongs to the
Unicode class Nd. -/
theorem cheat_chars_nd (content : List Char) (c : List Char)
    (hc : hmGet (build_extraction_map content) SOLUTION = some c) :
    ∀ ch ∈ c, isRegexDigit ch = true := by
  have hmem := hmGet_build_mem content SOLUTION c hc
  exact (capturesList_sound content SOLUTION c hmem).2.2

/-- C10 counterexample: the regex crate's `\d` is the Unicode class Nd, so
a `cheat` value of `"４"` (U+FF14, fullwidth digit four) is captured;
extraction succeeds, `"４".bytes()` is `[239, 188, 148]`, and the solution
entries 191, 140 and 100 all lie outside [0,9]. -/
theorem C10_counterexample :
    extract Difficulty.evil htmlUnicode = some puzzleUnicode ∧
    191 ∈ puzzleUnicode.solution ∧ ¬ (191 : Nat) ≤ 9 :=
  ⟨by decide, by decide, by decide⟩

/-- C10 amended: whenever extraction succeeds, every byte of the captured
`cheat` value is at least 48 — ASCII digits give the bytes 48-57 and the
non-ASCII characters admitted by the Unicode `\d` give UTF-8 bytes of at
least 128 — so the byte subtraction `u - b'0'` never underflows; and when
the captured `cheat` value consists entirely of ASCII decimal digits,
every element of the resulting solution lies in [0,9]. -/
theorem C10_byte_safety (d : Difficulty) (content : List Char) (p : Puzzle)
    (hp : extract d content = some p)
    (c : List Char)
    (hc : hmGet (build_extraction_map content) SOLUTION = some c) :
    (∀ u ∈ utf8Bytes c, 48 ≤ u) ∧
    ((∀ ch ∈ c, ch.isDigit = true) → ∀ v ∈ p.solution, v ≤ 9) := by
  constructor
  · intro u hu
    rw [utf8Bytes] at hu
    rcases List.mem_flatten.mp hu with ⟨l, hl, hul⟩
    rcases List.mem_map.mp hl with ⟨ch, hch, rfl⟩
    exact nd_byte_lower ch (cheat_chars_nd content c hc ch hch) u hul
  · intro hAscii
    rcases extract_eq_some d content p hp with ⟨id0, c0, m0, _, hch, _, rfl⟩
    rw [hch] at hc
    cases hc
    intro v hv
    rcases List.mem_map.mp hv with ⟨u, hu, rfl⟩
    have hb := mem_utf8Bytes_digits c hAscii u hu
    omega

/-- Witness for the amended C10 on the full ASCII fixture document: the
byte 49 of the captured cheat string is above 48, and the extracted digit 9
is within range. -/
theorem C10_byte_safety_witness : (48 : Nat) ≤ 49 ∧ (9 : Nat) ≤ 9 :=
  ⟨(C10_byte_safety Difficulty.evil htmlFull puzzleFull (by decide)
      (("192").data) (by decide)).1 49 (by decide),
   (C10_byte_safety Difficulty.evil htmlFull puzzleFull (by decide)
      (("192").data) (by decide)).2 (by decide) 9 (by decide)⟩

/-- C4: field conversion.  When extraction succeeds with extracted strings
`cheat` (`c`) and `editmask` (`m`), the solution is the raw wrapping byte
subtraction of `b'0'` over the bytes of `c` and the mask compares each byte
of `m` with `b'1'`, with no bounds or digit-class check; for digit strings
this gives `solution[i] = int(c[i])` and `mask[i] = (m[i] == '1')` at every
position. -/
theorem C4_field_conversion (d : Difficulty) (content : List Char) (p : Puzzle)
    (c m : List Char)
    (hp : extract d content = some p)
    (hc : hmGet (build_extraction_map content) SOLUTION = some c)
    (hm : hmGet (build_extraction_map content) MASK_KEY = some m) :
    p.solution = (utf8Bytes c).map (fun u => (u + 208) % 256) ∧
    p.mask = (utf8Bytes m).map (fun u => u == 49) ∧
    ((∀ ch ∈ c, ch.isDigit = true) →
      p.solution.length = c.length ∧
      ∀ i, (hi : i < c.length) →
        p.solution[i]? = some ((c.get ⟨i, hi⟩).toNat - 48)) ∧
    ((∀ ch ∈ m, ch = '0' ∨ ch = '1') →
      p.mask.length = m.length ∧
      ∀ i, (hi : i < m.length) →
        p.mask[i]? = some (decide (m.get ⟨i, hi⟩ = '1'))) := by
  rcases extract_eq_some d content p hp with ⟨id0, c0, m0, _, hch, hmk, rfl⟩
  rw [hch] at hc
  rw [hmk] at hm
  cases hc
  cases hm
  refine ⟨rfl, rfl, ?_, ?_⟩
  · intro hdig
    have hb : utf8Bytes c = c.map Char.toNat := utf8Bytes_of_digits c hdig
    constructor
    · simp [hb]
    · intro i hi
      show ((utf8Bytes c).map (fun u => (u + 208) % 256))[i]? = _
      rw [hb, List.map_map, List.getElem?_map, ← List.get?_eq_getElem?,
        List.get?_eq_get hi]
      simp only [Option.map_some', Function.comp_apply, Option.some.injEq]
      have hbnd := digit_char_bounds (c.get ⟨i, hi⟩)
        (hdig _ (List.get_mem c i hi))
      omega
  · intro h01
    have hascii : ∀ ch ∈ m, ch.toNat < 128 := by
      intro ch hch2
      rcases h01 ch hch2 with h | h <;> rw [h] <;> decide
    have hb : utf8Bytes m = m.map Char.toNat := utf8Bytes_ascii m hascii
    constructor
    · simp [hb]
    · intro i hi
      show ((utf8Bytes m).map (fun u => u == 49))[i]? = _
      rw [hb, List.map_map, List.getElem?_map, ← List.get?_eq_getElem?,
        List.get?_eq_get hi]
      simp only [Option.map_some', Function.comp_apply, Option.some.injEq]
      rcases h01 (m.get ⟨i, hi⟩) (List.get_mem m i hi) with h | h <;> rw [h] <;> rfl

/-- Witness for C4 on the full fixture document: the second solution entry
is the digit 9 of `"192"` and the second mask entry is `false` from `"101"`. -/
theorem C4_field_conversion_witness :
    puzzleFull.solution[1]? = some 9 ∧ puzzleFull.mask[1]? = some false := by
  have h := C4_field_conversion Difficulty.evil htmlFull puzzleFull
    (("192").data) (("101").data) (by decide) (by decide) (by decide)
  constructor
  · exact (h.2.2.1 (by decide)).2 1 (by decide)
  · exact (h.2.2.2 (by decide)).2 1 (by decide)

end Websudoku
